import Mathlib

/-!
# Verification of the file-export tool (`export.py`)

A shallow embedding of the core of the `rpg` repository's `export.py`:
the file selector (`should_process_file`), the traversal/collection phase of
`process_directory` (built on `os.walk` with in-place pruning of ignored
directories), the reader (`process_file`), the writer (`write_output_file`)
with its collision-avoiding `generate_unique_filename`, the combined-text
generator (`generate_combined_output`), and the tree renderer
(`_generate_tree`).

Modelling conventions:
* Filesystem paths are lists of POSIX components (`List String`); rendering a
  path to its string form (`str(Path(...))`) joins components with `'/'`.
* Python `set`s of strings are modelled as `List String`, used only through
  membership, so duplicates and ordering are irrelevant.
* The source tree is an immutable value of the inductive type `FSNode`; a file
  leaf stores `Option String` — `none` models a file whose `open`/`read`
  raises (I/O or decoding failure), and a directory carries a `readable` flag —
  `false` models a directory whose listing raises `PermissionError`.
* The output directory is a mutable association list from full output paths to
  written content; Python exceptions raised by `open(...,'w')`/`mkdir` on a
  given destination are modelled by an oracle `bad : List String → Bool`.
* Machine integers do not occur; the collision counter is an unbounded Python
  `int`, modelled as `Nat`.
-/

namespace ExportPy

/-- Join path components with `'/'`, at the character level
(`str(Path(...))` for a relative POSIX path). -/
def joinComponents : List (List Char) → List Char
  | [] => []
  | [x] => x
  | x :: y :: xs => x ++ '/' :: joinComponents (y :: xs)

/-- String form of a component path, as Python's `str(file_path)`. -/
def pathStr (p : List String) : String :=
  ⟨joinComponents (p.map String.data)⟩

/-- Python `Path.name`: the final path component (empty for the empty path). -/
def pathName (p : List String) : String :=
  p.getLast?.getD ""

/-- Python `str.endswith`: character-level suffix test. -/
def strEndsWith (s pat : String) : Bool :=
  pat.data.isSuffixOf s.data

/-- `FileProcessor.should_process_file` (export.py:115-120): a path is selected
iff its *string form* ends with one of the configured extensions and its final
component is not an ignored file name. -/
def should_process_file (extensions ignored_files : List String)
    (file_path : List String) : Bool :=
  extensions.any (fun ext => strEndsWith (pathStr file_path) ext)
    && !(ignored_files.contains (pathName file_path))

/-- A node of the source tree.  A file leaf stores `none` when opening/reading
it raises (I/O or decoding failure); a directory with `readable = false` is one
whose listing raises `PermissionError`. -/
inductive FSNode where
  | file (name : String) (content : Option String)
  | dir (name : String) (readable : Bool) (children : List FSNode)

/-- `Path.name` / `DirEntry.name` of a node. -/
def FSNode.name : FSNode → String
  | .file n _ => n
  | .dir n _ _ => n

/-- Python `Path.is_file()`. -/
def FSNode.isFileB : FSNode → Bool
  | .file _ _ => true
  | .dir _ _ _ => false

/-- Python `Path.is_dir()`. -/
def FSNode.isDirB (n : FSNode) : Bool := !n.isFileB

mutual

/-- The collection phase of `FileProcessor.process_directory`
(export.py:130-138): `os.walk(source_dir)` top-down, pruning the subdirectory
list in place with `dirs[:] = [d for d in dirs if d not in ignored_dirs]`, and
appending every file path for which `should_process_file` holds.  `os.walk`
yields the current directory's files first, then descends into each surviving
subdirectory in listing order; a directory whose listing raises is skipped
silently (`os.walk`'s default `onerror=None`).  Each collected entry carries
the file's full path together with its readable content (`none` when reading
that file would fail). -/
def walkCollect (E I D : List String) (path : List String) :
    FSNode → List (List String × Option String)
  | .file _ _ => []
  | .dir _ readable children =>
    if !readable then []
    else
      (children.filter FSNode.isFileB).filterMap
        (fun f =>
          if should_process_file E I (path ++ [f.name]) then
            some (path ++ [f.name],
              match f with
              | .file _ c => c
              | .dir _ _ _ => none)
          else none)
      ++ walkCollectDirs E I D path children

/-- Descend into each surviving subdirectory in listing order
(`for d in dirs: ...` after the in-place pruning
`dirs[:] = [d for d in dirs if d not in ignored_dirs]`; testing the guard per
element is the same traversal as pre-filtering the list). -/
def walkCollectDirs (E I D : List String) (path : List String) :
    List FSNode → List (List String × Option String)
  | [] => []
  | c :: cs =>
    (if c.isDirB && !(D.contains c.name) then
      walkCollect E I D (path ++ [c.name]) c
     else [])
    ++ walkCollectDirs E I D path cs

end

/-- A legal POSIX entry name: nonempty, no path separator. -/
def goodNameB (s : String) : Bool :=
  !s.data.isEmpty && !(s.data.contains '/')

mutual

/-- Well-formedness of a modelled source tree: every entry name is a legal
POSIX file name. -/
def wfTree : FSNode → Bool
  | .file n _ => goodNameB n
  | .dir n _ children => goodNameB n && wfChildren children

def wfChildren : List FSNode → Bool
  | [] => true
  | c :: cs => wfTree c && wfChildren cs

end

/-- Python `Path.relative_to`: a purely lexical check — it succeeds iff
`base`'s components are a prefix of `p`'s, returning the remaining components,
and raises `ValueError` (here: `none`) otherwise. -/
def relative_to (p base : List String) : Option (List String) :=
  if base.isPrefixOf p then some (p.drop base.length) else none

/-- The dictionary returned by a successful `process_file`: the path *string*
relative to the source root, and the file content. -/
structure FileData where
  path : String
  content : String
deriving DecidableEq

/-- `FileProcessor.process_file` (export.py:79-90).  The whole body runs inside
`try: ... except Exception: return None`, so *every* failure — an I/O or
decoding error from `open`/`read` (entry content `none`) just as well as the
`ValueError` raised by `Path.relative_to` when the file path is not under
`source_dir` — is caught, logged, and turned into `None`. -/
def process_file (source_dir : List String)
    (entry : List String × Option String) : Option FileData :=
  match entry.2 with
  | none => none
  | some content =>
    match relative_to entry.1 source_dir with
    | none => none
    | some rel => some ⟨pathStr rel, content⟩

/-- The ten decimal digit characters, as produced by Python `str(int)`. -/
def digit10 (d : Nat) : Char :=
  match d with
  | 0 => '0'
  | 1 => '1'
  | 2 => '2'
  | 3 => '3'
  | 4 => '4'
  | 5 => '5'
  | 6 => '6'
  | 7 => '7'
  | 8 => '8'
  | _ => '9'

/-- Decimal digit string of a natural number (Python's `str(counter)` as
interpolated by `f"{name}_{counter}{ext}"`). -/
def decDigits (n : Nat) : List Char :=
  if _h : n < 10 then [digit10 n]
  else decDigits (n / 10) ++ [digit10 (n % 10)]
termination_by n
decreasing_by exact Nat.div_lt_self (by omega) (by omega)

/-- Decimal rendering of a Python `int` counter. -/
def decRepr (n : Nat) : String := ⟨decDigits n⟩

/-- Numeric value of a decimal digit character. -/
def decVal (c : Char) : Nat := c.toNat - 48

/-- Decode a decimal digit string back to its value. -/
def decodeDigits (l : List Char) : Nat :=
  l.foldl (fun a c => 10 * a + decVal c) 0

/-- Digit characters decode to their value.  (Stated as a `def` of a proof:
later definitions' termination arguments depend on it.) -/
def decVal_digit10 : ∀ d : Nat, d < 10 → decVal (digit10 d) = d := by
  intro d h
  interval_cases d <;> rfl

/-- Decoding inverts decimal rendering. -/
def decDigits_decode : ∀ n : Nat, decodeDigits (decDigits n) = n := by
  intro n
  induction n using Nat.strong_induction_on with
  | _ n ih =>
    rw [decDigits]
    split
    · rename_i h
      interval_cases n <;> rfl
    · rename_i h
      have h10 : n / 10 < n := Nat.div_lt_self (by omega) (by omega)
      have e1 : decodeDigits (decDigits (n / 10) ++ [digit10 (n % 10)]) =
          10 * decodeDigits (decDigits (n / 10)) + decVal (digit10 (n % 10)) := by
        simp [decodeDigits, List.foldl_append]
      rw [e1, ih _ h10, decVal_digit10 _ (Nat.mod_lt _ (by omega))]
      omega

/-- Decimal rendering is injective. -/
def decRepr_injective : ∀ m n : Nat, decRepr m = decRepr n → m = n := by
  intro m n h
  have hd : decDigits m = decDigits n := congrArg String.data h
  have := congrArg decodeDigits hd
  rwa [decDigits_decode, decDigits_decode] at this

/-- The contents of the output directory: an association list from full output
paths to written content, most recent write first (so a rewrite shadows). -/
abbrev FS := List (List String × String)

/-- Disk lookup in the modelled output directory. -/
def lookupFS (fs : FS) (p : List String) : Option String :=
  match fs with
  | [] => none
  | (q, c) :: rest => if q = p then some c else lookupFS rest p

/-- Python `Path.exists()` against the modelled output directory. -/
def existsFS (fs : FS) (p : List String) : Bool :=
  (lookupFS fs p).isSome

/-- Index (from the front) of the *last* `'.'` in a character list:
Python `str.rfind('.')` restricted to a found result. -/
def rfindDot : List Char → Option Nat
  | [] => none
  | c :: cs =>
    match rfindDot cs with
    | some i => some (i + 1)
    | none => if c = '.' then some 0 else none

/-- Python `PurePath.stem` / `PurePath.suffix` of a file name: the suffix is
`name[i:]` where `i` is the position of the last dot, provided
`0 < i < len(name) - 1`; otherwise the suffix is empty and the stem is the
whole name. -/
def stemSuffix (name : String) : String × String :=
  match rfindDot name.data with
  | none => (name, "")
  | some i =>
    if 0 < i ∧ i + 1 < name.data.length then
      (⟨name.data.take i⟩, ⟨name.data.drop i⟩)
    else (name, "")

/-- The candidate file name `f"{name}_{counter}{ext}"` probed by
`generate_unique_filename`. -/
def candName (stem ext : String) (n : Nat) : String :=
  stem ++ "_" ++ decRepr n ++ ext

/-- Candidate names with the same stem and extension differ for different
counters. -/
def candName_injective : ∀ (stem ext : String) (m n : Nat),
    candName stem ext m = candName stem ext n → m = n := by
  intro s e m n h
  apply decRepr_injective
  have hd : s.data ++ '_' :: ((decRepr m).data ++ e.data) =
      s.data ++ '_' :: ((decRepr n).data ++ e.data) := by
    have := congrArg String.data h
    simpa [candName, String.data_append, List.append_assoc] using this
  have h2 := List.append_cancel_left hd
  have h3 : (decRepr m).data ++ e.data = (decRepr n).data ++ e.data := by
    injection h2
  have h4 := List.append_cancel_right h3
  exact String.ext h4

/-- A key whose lookup succeeds is among the stored keys. -/
def existsFS_mem_keys : ∀ (fs : FS) (p : List String),
    existsFS fs p = true → p ∈ fs.map Prod.fst := by
  intro fs p h
  induction fs with
  | nil => simp [existsFS, lookupFS] at h
  | cons e rest ih =>
    obtain ⟨q, c⟩ := e
    by_cases hq : q = p
    · simp [hq]
    · simp only [existsFS, lookupFS, if_neg hq] at h
      exact List.mem_cons_of_mem _ (ih h)

/-- The probe loop always finds an unused candidate: only finitely many paths
exist in the output directory, and distinct counters give distinct candidate
paths. -/
def fresh_exists : ∀ (fs : FS) (base : List String) (stem ext : String) (c : Nat),
    ∃ n, c ≤ n ∧ existsFS fs (base ++ [candName stem ext n]) = false := by
  intro fs base s e c
  by_contra hcon
  push_neg at hcon
  have hall : ∀ i : Nat, (base ++ [candName s e (c + i)]) ∈ fs.map Prod.fst := by
    intro i
    refine existsFS_mem_keys fs _ ?_
    have := hcon (c + i) (Nat.le_add_right _ _)
    exact Bool.not_eq_false _ ▸ (by simpa using this)
  have hinj : ∀ i j : Nat, (base ++ [candName s e (c + i)]) =
      (base ++ [candName s e (c + j)]) → i = j := by
    intro i j hij
    have h1 := List.append_cancel_left hij
    have h2 : candName s e (c + i) = candName s e (c + j) := by
      simpa using h1
    have := candName_injective s e _ _ h2
    omega
  have hnodup : ((List.range (fs.length + 1)).map
      (fun i => base ++ [candName s e (c + i)])).Nodup := by
    refine List.Nodup.map_on ?_ (List.nodup_range _)
    intro i _ j _ hij
    exact hinj i j hij
  have hsub : ((List.range (fs.length + 1)).map
      (fun i => base ++ [candName s e (c + i)])) ⊆ fs.map Prod.fst := by
    intro x hx
    obtain ⟨i, _, rfl⟩ := List.mem_map.1 hx
    exact hall i
  have hsp := List.subperm_of_subset hnodup hsub
  have hlen := hsp.length_le
  rw [List.length_map, List.length_range, List.length_map] at hlen
  omega

/-- The probe loop of `generate_unique_filename` (export.py:72-77): starting
from counter `c`, return the first candidate `f"{stem}_{counter}{ext}"` whose
path in `base` does not exist. -/
def genUniqueAux (fs : FS) (base : List String) (stem ext : String) (c : Nat) :
    String :=
  if h : existsFS fs (base ++ [candName stem ext c]) then
    genUniqueAux fs base stem ext (c + 1)
  else candName stem ext c
termination_by Nat.find (fresh_exists fs base stem ext c) - c
decreasing_by
  have hF := Nat.find_spec (fresh_exists fs base stem ext c)
  have hne : Nat.find (fresh_exists fs base stem ext c) ≠ c := by
    intro hh
    rw [hh] at hF
    rw [hF.2] at h
    exact Bool.false_ne_true h
  have hcF : c < Nat.find (fresh_exists fs base stem ext c) :=
    lt_of_le_of_ne hF.1 (Ne.symm hne)
  have heq : Nat.find (fresh_exists fs base stem ext (c + 1)) =
      Nat.find (fresh_exists fs base stem ext c) := by
    apply le_antisymm
    · exact Nat.find_le ⟨by omega, hF.2⟩
    · refine Nat.find_min' _ ⟨?_, (Nat.find_spec (fresh_exists fs base stem ext (c + 1))).2⟩
      have := (Nat.find_spec (fresh_exists fs base stem ext (c + 1))).1
      omega
  omega

/-- `FileProcessor.generate_unique_filename` (export.py:65-77): return
`base_path / filename` if it does not exist; otherwise split the name into
stem and suffix and probe `f"{stem}_{counter}{suffix}"` for
`counter = 1, 2, ...` until an unused path is found.  (`path.stem` and
`path.suffix` of `base_path / filename` are those of `filename`.) -/
def generate_unique_filename (fs : FS) (base_path : List String)
    (filename : String) : List String :=
  let path := base_path ++ [filename]
  if !(existsFS fs path) then path
  else
    let se := stemSuffix filename
    base_path ++ [genUniqueAux fs base_path se.1 se.2 1]

/-- `FileProcessorConfig` (export.py:11-20), restricted to the fields the core
logic reads.  (`max_workers` only sizes the thread pool and has no effect on
the modelled, order-preserving fan-out.) -/
structure FileProcessorConfig where
  extensions : List String
  ignored_dirs : List String
  ignored_files : List String
  source_dir : List String
  output_dir : List String
  text_output : List String
  mirror_dir_structure : Bool

/-- Mutable per-run state owned by the pipeline: the output-directory contents
and `self.processed_files`. -/
structure OutState where
  fs : FS
  processed : List (List String)
deriving DecidableEq

/-- Split a character list at `'/'` separators. -/
def splitChars : List Char → List (List Char)
  | [] => [[]]
  | c :: cs =>
    match splitChars cs with
    | [] => if c = '/' then [[], []] else [[c]]
    | h :: t => if c = '/' then [] :: h :: t else (c :: h) :: t

/-- Python `Path(s)` applied to a stored relative-path string: recover its
components. -/
def parsePath (s : String) : List String :=
  (splitChars s.data).map (fun cs => ⟨cs⟩)

/-- The destination `write_output_file` resolves for a record
(export.py:97-104): `output_dir / rel_path` in mirrored mode; in flat mode,
`generate_unique_filename(output_dir, basename)` (the interim
`output_dir / name` is only formed to take its `.name` again). -/
def resolve_output_path (cfg : FileProcessorConfig) (fs : FS)
    (fd : FileData) : List String :=
  if cfg.mirror_dir_structure then cfg.output_dir ++ parsePath fd.path
  else generate_unique_filename fs cfg.output_dir (pathName (parsePath fd.path))

/-- `FileProcessor.write_output_file` (export.py:92-113).  A `None` record
(the propagated soft failure of a read) is a no-op.  Otherwise parent
directories of the resolved destination are created, the content written
(overwriting), and the resolved path appended to `processed_files`.  An
exception while creating directories or writing (the `bad` oracle answers
`true` for that destination) is caught and logged: nothing is appended and
the run continues. -/
def write_output_file (cfg : FileProcessorConfig) (bad : List String → Bool)
    (st : OutState) (file_data : Option FileData) : OutState :=
  match file_data with
  | none => st
  | some fd =>
    let output_path := resolve_output_path cfg st.fs fd
    if bad output_path then st
    else
      { fs := (output_path, fd.content) :: st.fs
        processed := st.processed ++ [output_path] }

/-- The loop of `generate_combined_output` (export.py:179-182): re-read every
processed file in recorded order and build one
`f"File: {file_path}\n{content}\n\n"` block per file; `none` when some read
raises (the surrounding `try` then discards all blocks). -/
def combineBlocks (fs : FS) : List (List String) → Option (List String)
  | [] => some []
  | p :: ps =>
    match lookupFS fs p, combineBlocks fs ps with
    | some c, some rest =>
      some (("File: " ++ pathStr p ++ "\n" ++ c ++ "\n\n") :: rest)
    | _, _ => none

/-- `FileProcessor.generate_combined_output` (export.py:176-196): concatenate
the blocks; any failure is caught and yields the empty string. -/
def generate_combined_output (fs : FS) (processed : List (List String)) :
    String :=
  match combineBlocks fs processed with
  | some blocks => String.join blocks
  | none => ""

/-- Python `str.lower()`, character-wise. -/
def strLower (s : String) : String := ⟨s.data.map Char.toLower⟩

/-- Lexicographic code-point comparison of character lists: Python string
`<=`. -/
def charsLE : List Char → List Char → Bool
  | [], _ => true
  | _ :: _, [] => false
  | a :: as, b :: bs =>
    if a.toNat < b.toNat then true
    else if b.toNat < a.toNat then false
    else charsLE as bs

/-- Python tuple comparison of the sort key
`(p.is_file(), p.name.lower())` (export.py:210): `False < True`, so
directories order before files, then case-insensitively by name. -/
def keyLE (a b : FSNode) : Bool :=
  if a.isFileB = b.isFileB then
    charsLE (strLower a.name).data (strLower b.name).data
  else !a.isFileB

/-- Stable insertion into a sorted list. -/
def insertSorted (a : FSNode) : List FSNode → List FSNode
  | [] => [a]
  | b :: l => if keyLE a b then a :: b :: l else b :: insertSorted a l

/-- Python `sorted(path.iterdir(), key=lambda p: (p.is_file(), p.name.lower()))`:
a stable ascending sort of the directory listing. -/
def sortChildren : List FSNode → List FSNode
  | [] => []
  | a :: l => insertSorted a (sortChildren l)

/-- Insertion preserves total size (needed by the tree renderer's termination
argument, hence stated as a `def` of a proof). -/
def sizeOf_insertSorted : ∀ (a : FSNode) (l : List FSNode),
    sizeOf (insertSorted a l) = sizeOf (a :: l) := by
  intro a l
  induction l with
  | nil => rfl
  | cons b t ih =>
    rw [insertSorted]
    split
    · rfl
    · simp only [List.cons.sizeOf_spec, ih]
      omega

/-- Sorting preserves total size. -/
def sizeOf_sortChildren : ∀ l : List FSNode,
    sizeOf (sortChildren l) = sizeOf l := by
  intro l
  induction l with
  | nil => rfl
  | cons a t ih =>
    rw [sortChildren, sizeOf_insertSorted]
    simp only [List.cons.sizeOf_spec, ih]

mutual

/-- `FileProcessor._generate_tree` (export.py:198-226).  Empty when the
path's own final component is an ignored-directory name, when the path is not
under `text_output` (`relative_to` raises `ValueError`), or when listing the
directory raises `PermissionError`.  Otherwise render the sorted listing.
The `.file` case is unreachable: the source only recurses on directories. -/
def genTree (D txt : List String) (path : List String) (node : FSNode)
    (pre : String) : List String :=
  match node with
  | .file _ _ => []
  | .dir _ readable children =>
    if D.contains (pathName path) then []
    else if !(txt.isPrefixOf path) then []
    else if !readable then []
    else
      let ps := sortChildren children
      treeLoop D txt path pre ps.length 0 ps
termination_by sizeOf node
decreasing_by
  simp only [sizeOf_sortChildren, FSNode.dir.sizeOf_spec]
  omega

/-- The `for i, p in enumerate(paths)` loop of `_generate_tree`
(export.py:214-224): `total` is `len(paths)` of the *unfiltered* sorted
listing and `i` the index within it; children named in the ignored set are
skipped after the index is assigned. -/
def treeLoop (D txt : List String) (path : List String) (pre : String)
    (total i : Nat) : List FSNode → List String
  | [] => []
  | p :: rest =>
    (if D.contains p.name then []
     else
       (pre ++ (if i = total - 1 then "└── " else "├── ") ++ p.name) ::
       (if p.isDirB then
          genTree D txt (path ++ [p.name]) p
            (pre ++ (if i = total - 1 then "    " else "│   "))
        else []))
    ++ treeLoop D txt path pre total (i + 1) rest
termination_by l => sizeOf l
decreasing_by
  · simp only [List.cons.sizeOf_spec]
    omega
  · simp only [List.cons.sizeOf_spec]
    omega

end

/-- The per-run result pair (export.py:22-25). -/
structure ProcessingResults where
  tree_output : String
  combined_output : String
deriving DecidableEq

/-- `shutil.rmtree(output_dir)` followed by `mkdir`: destructive replacement
of whatever the output directory held before the run. -/
def clearOutput (_old : FS) : FS := []

/-- `FileProcessor.process_directory` (export.py:122-156): clear and recreate
the output directory, collect all qualifying files in one walk, read them —
`ThreadPoolExecutor.map` yields results in task-submission order, so the
fan-out is the order-preserving `List.map` — write each result sequentially,
then render the two artifacts.  `bad` models per-destination write failures
and belongs to the unchanged environment; `disk` is whatever the output
directory contained when the run started.  The final `OutState` is returned
so a second run can start from the state the first run left behind. -/
def process_directory (cfg : FileProcessorConfig) (tree : FSNode)
    (bad : List String → Bool) (disk : FS) : ProcessingResults × OutState :=
  let cleared := clearOutput disk
  let files_to_process :=
    walkCollect cfg.extensions cfg.ignored_files cfg.ignored_dirs
      cfg.source_dir tree
  let results := files_to_process.map (process_file cfg.source_dir)
  let st := results.foldl (write_output_file cfg bad) ⟨cleared, []⟩
  let tree_output :=
    String.intercalate "\n"
      (genTree cfg.ignored_dirs cfg.text_output cfg.source_dir tree "")
  let combined_output := generate_combined_output st.fs st.processed
  (⟨tree_output, combined_output⟩, st)

/-- The file name the `k`-th same-base-named flat-mode write is expected to
receive: the base name itself first, then `{stem}_{k}{ext}`. -/
def expectedName (filename : String) (k : Nat) : String :=
  if k = 0 then filename
  else candName (stemSuffix filename).1 (stemSuffix filename).2 k

/-- The full output paths `dir/name, dir/{stem}_1{ext}, …` expected from `n`
same-base-named flat-mode writes into an initially empty directory, in write
order. -/
def expectedNames (out : List String) (filename : String) : Nat → List (List String)
  | 0 => []
  | n + 1 => expectedNames out filename n ++ [out ++ [expectedName filename n]]

/-- Spec-side description of one iteration of `_generate_tree`'s child loop,
phrased per enumerated child of the *full* sorted listing: connector and
prefix extension are chosen by the child's index `ip.1` against
`total = len(paths)`, and an ignored name contributes nothing (after having
consumed its index). -/
def childBlock (D txt : List String) (path : List String) (pre : String)
    (total : Nat) (ip : Nat × FSNode) : List String :=
  if D.contains ip.2.name then []
  else
    (pre ++ (if ip.1 = total - 1 then "└── " else "├── ") ++ ip.2.name) ::
    (if ip.2.isDirB then
      genTree D txt (path ++ [ip.2.name]) ip.2
        (pre ++ (if ip.1 = total - 1 then "    " else "│   "))
     else [])

/-- C1. The selector tests the full path string, not the file name: selection
holds iff `str(file_path)` ends with some configured extension and the file
name is not ignored; with an empty extension set nothing is selected. -/
theorem c1_selector_characterization (E I : List String) (p : List String) :
    (should_process_file E I p = true ↔
      ((∃ e ∈ E, strEndsWith (pathStr p) e = true) ∧ pathName p ∉ I)) ∧
    should_process_file [] I p = false := by
  constructor
  · simp [should_process_file, List.any_eq_true]
  · simp [should_process_file]

/-- C1 counterexample to the claim as stated: with extension set
`{"a/b.py"}` and no ignored files, the nested path `a/b.py` *is* selected even
though its file name `b.py` does not end with any element of the extension
set — the code matches extensions against the whole path string, not the
file's name. -/
theorem c1_claim_false_on_nested_extension :
    ¬ (should_process_file ["a/b.py"] [] ["a", "b.py"] = true ↔
        ((∃ e ∈ ["a/b.py"], strEndsWith (pathName ["a", "b.py"]) e = true) ∧
          pathName ["a", "b.py"] ∉ ([] : List String))) := by
  decide


/-- A key whose lookup succeeds is exactly a stored key. -/
theorem existsFS_iff_mem_keys (fs : FS) (p : List String) :
    existsFS fs p = true ↔ p ∈ fs.map Prod.fst := by
  induction fs with
  | nil => simp [existsFS, lookupFS]
  | cons e rest ih =>
    obtain ⟨q, c⟩ := e
    by_cases hq : q = p
    · subst hq
      simp [existsFS, lookupFS]
    · have h1 : existsFS ((q, c) :: rest) p = existsFS rest p := by
        simp [existsFS, lookupFS, hq]
      simp only [List.map_cons, List.mem_cons, h1, ih]
      constructor
      · exact Or.inr
      · rintro (h | h)
        · exact absurd h.symm hq
        · exact h

/-- Character-level form of a probe candidate. -/
theorem candName_data (s e : String) (n : Nat) :
    (candName s e n).data = s.data ++ '_' :: ((decRepr n).data ++ e.data) := by
  show (s ++ "_" ++ decRepr n ++ e).data = _
  simp [String.data_append, List.append_assoc]

/-- `stem ++ suffix` recovers the file name split by `stemSuffix`. -/
theorem stemSuffix_append (f : String) :
    (stemSuffix f).1.data ++ (stemSuffix f).2.data = f.data := by
  unfold stemSuffix
  split
  · simp
  · split
    · simp [List.take_append_drop]
    · simp

/-- A probe candidate never equals the base file name it derives from. -/
theorem candName_ne_filename (f : String) (n : Nat) :
    candName (stemSuffix f).1 (stemSuffix f).2 n ≠ f := by
  intro h
  have hd := congrArg String.data h
  rw [candName_data] at hd
  have hlen := congrArg List.length hd
  have h2 : f.data = (stemSuffix f).1.data ++ (stemSuffix f).2.data :=
    (stemSuffix_append f).symm
  rw [h2] at hlen
  simp [List.length_append] at hlen
  omega

/-- If the candidate at `c` exists, the least fresh counter is beyond `c`. -/
theorem fresh_find_pos (fs : FS) (base : List String) (s e : String) (c : Nat)
    (h : existsFS fs (base ++ [candName s e c]) = true) :
    c < Nat.find (fresh_exists fs base s e c) := by
  have hF := Nat.find_spec (fresh_exists fs base s e c)
  rcases Nat.eq_or_lt_of_le hF.1 with heq | hlt
  · exfalso
    rw [← heq] at hF
    rw [hF.2] at h
    exact Bool.false_ne_true h
  · exact hlt

/-- Advancing past an existing candidate does not change the least fresh
counter. -/
theorem fresh_find_succ (fs : FS) (base : List String) (s e : String) (c : Nat)
    (h : existsFS fs (base ++ [candName s e c]) = true) :
    Nat.find (fresh_exists fs base s e (c + 1)) =
      Nat.find (fresh_exists fs base s e c) := by
  have hF := Nat.find_spec (fresh_exists fs base s e c)
  have hcF := fresh_find_pos fs base s e c h
  apply le_antisymm
  · exact Nat.find_le ⟨by omega, hF.2⟩
  · refine Nat.find_min' _ ⟨?_, (Nat.find_spec (fresh_exists fs base s e (c + 1))).2⟩
    have := (Nat.find_spec (fresh_exists fs base s e (c + 1))).1
    omega

/-- The probe loop's result never exists (bounded-induction core). -/
theorem genUniqueAux_fresh_aux : ∀ (m : Nat) (fs : FS) (base : List String)
    (s e : String) (c : Nat),
    Nat.find (fresh_exists fs base s e c) - c ≤ m →
    existsFS fs (base ++ [genUniqueAux fs base s e c]) = false := by
  intro m
  induction m with
  | zero =>
    intro fs base s e c hc
    rw [genUniqueAux]
    split
    · rename_i h
      exfalso
      have := fresh_find_pos fs base s e c h
      omega
    · rename_i h
      simpa using h
  | succ m ih =>
    intro fs base s e c hc
    rw [genUniqueAux]
    split
    · rename_i h
      apply ih
      rw [fresh_find_succ fs base s e c h]
      have := fresh_find_pos fs base s e c h
      omega
    · rename_i h
      simpa using h

/-- The probe loop's result never exists in the directory at call time. -/
theorem genUniqueAux_fresh (fs : FS) (base : List String) (s e : String)
    (c : Nat) :
    existsFS fs (base ++ [genUniqueAux fs base s e c]) = false :=
  genUniqueAux_fresh_aux _ fs base s e c le_rfl

/-- The probe loop returns the candidate at `k` whenever all candidates from
`c` up to `k` exist and the one at `k` does not. -/
theorem genUniqueAux_eq_of : ∀ (m : Nat) (fs : FS) (base : List String)
    (s e : String) (c k : Nat),
    k - c ≤ m → c ≤ k →
    (∀ j, c ≤ j → j < k → existsFS fs (base ++ [candName s e j]) = true) →
    existsFS fs (base ++ [candName s e k]) = false →
    genUniqueAux fs base s e c = candName s e k := by
  intro m
  induction m with
  | zero =>
    intro fs base s e c k hm hck hall hfresh
    have hck' : c = k := by omega
    subst hck'
    rw [genUniqueAux]
    split
    · rename_i h
      rw [hfresh] at h
      exact absurd h (by simp)
    · rfl
  | succ m ih =>
    intro fs base s e c k hm hck hall hfresh
    rcases Nat.eq_or_lt_of_le hck with heq | hlt
    · subst heq
      rw [genUniqueAux]
      split
      · rename_i h
        rw [hfresh] at h
        exact absurd h (by simp)
      · rfl
    · rw [genUniqueAux]
      split
      · rename_i h
        exact ih fs base s e (c + 1) k (by omega) (by omega)
          (fun j hj1 hj2 => hall j (by omega) hj2) hfresh
      · rename_i h
        exact absurd (hall c le_rfl hlt) h

/-- C10.  The probe loop of `generate_unique_filename` terminates — it is a
total function of the (finite) modelled directory, in which only finitely many
candidate paths can exist — and its result is a path that does not exist in
the directory at call time. -/
theorem c10_unique_filename_is_fresh (fs : FS) (base_path : List String)
    (filename : String) :
    existsFS fs (generate_unique_filename fs base_path filename) = false := by
  by_cases h : existsFS fs (base_path ++ [filename]) = true
  · simp [generate_unique_filename, h, genUniqueAux_fresh]
  · have h' : existsFS fs (base_path ++ [filename]) = false := by
      simpa using h
    simp [generate_unique_filename, h']

/-- C5 (amended).  Every failure inside `process_file` is a *soft* failure:
an I/O or decoding error, and equally a path that cannot be expressed relative
to the source root, are caught by the same `except Exception`, yield `None`,
and the writer being a no-op on `None`, the batch continues. -/
theorem c5_every_read_failure_is_soft (source_dir : List String)
    (entry : List String × Option String) :
    (process_file source_dir entry = none ↔
      (entry.2 = none ∨ relative_to entry.1 source_dir = none)) ∧
    (∀ (cfg : FileProcessorConfig) (bad : List String → Bool) (st : OutState),
      process_file source_dir entry = none →
      write_output_file cfg bad st (process_file source_dir entry) = st) := by
  constructor
  · obtain ⟨p, c⟩ := entry
    cases c with
    | none => simp [process_file]
    | some c =>
      cases h : relative_to p source_dir with
      | none => simp [process_file, h]
      | some rel => simp [process_file, h]
  · intro cfg bad st h
    rw [h]
    rfl

/-- C5 witness: the soft-failure propagation at a concrete non-relativizable
path. -/
theorem c5_witness :
    write_output_file ⟨[], [], [], [], [], [], false⟩ (fun _ => false) ⟨[], []⟩
      (process_file ["src"] (["other", "a.py"], some "x")) = ⟨[], []⟩ :=
  (c5_every_read_failure_is_soft ["src"] (["other", "a.py"], some "x")).2
    ⟨[], [], [], [], [], [], false⟩ (fun _ => false) ⟨[], []⟩ rfl

/-- C5 counterexample to the claim as stated: a path that cannot be expressed
relative to the source root does *not* fail loudly — `process_file` returns
the very same soft failure (`None`) it returns for an ordinary I/O error, so
the batch continues either way. -/
theorem c5_nonrelative_path_soft_not_loud :
    process_file ["src"] (["other", "a.py"], some "x") = none ∧
    process_file ["src"] (["src", "bad.py"], none) = none := ⟨rfl, rfl⟩

/-- Storing a pair makes the stored key and all previously present keys
resolvable. -/
theorem lookupFS_cons_isSome (fs : FS) (p q : List String) (c : String)
    (h : (lookupFS fs q).isSome = true ∨ q = p) :
    (lookupFS ((p, c) :: fs) q).isSome = true := by
  by_cases hpq : p = q
  · simp [lookupFS, hpq]
  · rcases h with h | h
    · simp [lookupFS, hpq, h]
    · exact absurd h.symm hpq

/-- C6.  The writer is a no-op on an absent record; a successful write appends
exactly the resolved output path to `processed_files` and stores the content
there; a failed write appends nothing and does not abort the run; and the
invariant "every path in `processed_files` names a file present in the output
directory" is preserved by every write. -/
theorem c6_writer_contract (cfg : FileProcessorConfig)
    (bad : List String → Bool) (st : OutState) :
    (write_output_file cfg bad st none = st) ∧
    (∀ fd : FileData,
      (bad (resolve_output_path cfg st.fs fd) = false →
        write_output_file cfg bad st (some fd) =
          ⟨(resolve_output_path cfg st.fs fd, fd.content) :: st.fs,
            st.processed ++ [resolve_output_path cfg st.fs fd]⟩) ∧
      (bad (resolve_output_path cfg st.fs fd) = true →
        write_output_file cfg bad st (some fd) = st)) ∧
    (∀ fd : Option FileData,
      (∀ q ∈ st.processed, (lookupFS st.fs q).isSome = true) →
      ∀ q ∈ (write_output_file cfg bad st fd).processed,
        (lookupFS (write_output_file cfg bad st fd).fs q).isSome = true) := by
  refine ⟨rfl, ?_, ?_⟩
  · intro fd
    constructor
    · intro hb
      simp [write_output_file, hb]
    · intro hb
      simp [write_output_file, hb]
  · intro fd hinv q hq
    match fd with
    | none => exact hinv q hq
    | some fd =>
      by_cases hb : bad (resolve_output_path cfg st.fs fd) = true
      · simp only [write_output_file, hb, if_true] at hq ⊢
        exact hinv q hq
      · have hb' : bad (resolve_output_path cfg st.fs fd) = false := by
          simpa using hb
        simp only [write_output_file, hb', Bool.false_eq_true, if_false] at hq ⊢
        simp only [List.mem_append, List.mem_singleton] at hq
        apply lookupFS_cons_isSome
        rcases hq with h | h
        · exact Or.inl (hinv q h)
        · exact Or.inr h

/-- C6 witness: a concrete successful flat-mode write appends exactly the
resolved path. -/
theorem c6_witness :
    write_output_file ⟨[], [], [], [], ["out"], [], false⟩ (fun _ => false)
      ⟨[], []⟩ (some ⟨"a.py", "A"⟩) =
      ⟨[(["out", "a.py"], "A")], [["out", "a.py"]]⟩ :=
  ((c6_writer_contract ⟨[], [], [], [], ["out"], [], false⟩ (fun _ => false)
    ⟨[], []⟩).2.1 ⟨"a.py", "A"⟩).1 rfl

/-- C7.  When every recorded path is readable, the combined output is exactly
the concatenation, in recorded order, of one `File: {path}\n{content}\n\n`
block per recorded path, where each block's content is the current on-disk
content of that path (round trip). -/
theorem c7_combined_output_blocks (fs : FS) (processed : List (List String))
    (h : ∀ p ∈ processed, (lookupFS fs p).isSome = true) :
    generate_combined_output fs processed =
      String.join (processed.map (fun p =>
        "File: " ++ pathStr p ++ "\n" ++ ((lookupFS fs p).getD "") ++ "\n\n")) := by
  have key : ∀ ps : List (List String),
      (∀ p ∈ ps, (lookupFS fs p).isSome = true) →
      combineBlocks fs ps = some (ps.map (fun p =>
        "File: " ++ pathStr p ++ "\n" ++ ((lookupFS fs p).getD "") ++ "\n\n")) := by
    intro ps hps
    induction ps with
    | nil => rfl
    | cons p rest ih =>
      have hp := hps p (List.mem_cons_self _ _)
      obtain ⟨c, hc⟩ := Option.isSome_iff_exists.mp hp
      have hrest := ih (fun q hq => hps q (List.mem_cons_of_mem _ hq))
      simp [combineBlocks, hc, hrest]
  simp [generate_combined_output, key processed h]

/-- C7 witness: the combined output of one concretely written file. -/
theorem c7_witness :
    generate_combined_output [(["out", "a.py"], "A")] [["out", "a.py"]] =
      String.join ([["out", "a.py"]].map (fun p =>
        "File: " ++ pathStr p ++ "\n" ++
          ((lookupFS [(["out", "a.py"], "A")] p).getD "") ++ "\n\n")) :=
  c7_combined_output_blocks [(["out", "a.py"], "A")] [["out", "a.py"]]
    (by decide)

/-- `expectedNames` has one entry per write. -/
theorem expectedNames_length (out : List String) (f : String) :
    ∀ n, (expectedNames out f n).length = n := by
  intro n
  induction n with
  | zero => rfl
  | succ n ih => simp [expectedNames, ih]

/-- Membership in `expectedNames`. -/
theorem mem_expectedNames (out : List String) (f : String) :
    ∀ (n : Nat) (p : List String),
      p ∈ expectedNames out f n ↔ ∃ k, k < n ∧ p = out ++ [expectedName f k] := by
  intro n
  induction n with
  | zero => simp [expectedNames]
  | succ n ih =>
    intro p
    simp only [expectedNames, List.mem_append, List.mem_singleton, ih]
    constructor
    · rintro (⟨k, hk, rfl⟩ | rfl)
      · exact ⟨k, by omega, rfl⟩
      · exact ⟨n, by omega, rfl⟩
    · rintro ⟨k, hk, rfl⟩
      rcases Nat.lt_or_ge k n with h | h
      · exact Or.inl ⟨k, h, rfl⟩
      · have hkn : k = n := by omega
        subst hkn
        exact Or.inr rfl

/-- Distinct write indices receive distinct expected names. -/
theorem expectedName_injective (f : String) :
    ∀ j k, expectedName f j = expectedName f k → j = k := by
  intro j k h
  match j, k with
  | 0, 0 => rfl
  | 0, k + 1 =>
    exfalso
    apply candName_ne_filename f (k + 1)
    simpa [expectedName] using h.symm
  | j + 1, 0 =>
    exfalso
    apply candName_ne_filename f (j + 1)
    simpa [expectedName] using h
  | j + 1, k + 1 =>
    have := candName_injective _ _ _ _ (by simpa [expectedName] using h)
    omega

/-- The expected name sequence is duplicate-free. -/
theorem expectedNames_nodup (out : List String) (f : String) :
    ∀ n, (expectedNames out f n).Nodup := by
  intro n
  induction n with
  | zero => simp [expectedNames]
  | succ n ih =>
    simp only [expectedNames]
    refine List.Nodup.append ih (List.nodup_singleton _) ?_
    intro p hp hq
    simp only [List.mem_singleton] at hq
    subst hq
    obtain ⟨k, hk, he⟩ := (mem_expectedNames out f n _).mp hp
    have hname : expectedName f n = expectedName f k := by
      have := List.append_cancel_left he
      simpa using this
    have := expectedName_injective f n k hname
    omega

/-- Against a directory holding exactly the first `n` expected names,
`generate_unique_filename` produces the `n`-th expected name. -/
theorem generate_unique_on_expected (out : List String) (fname : String)
    (fs : FS) (n : Nat)
    (hkeys : ∀ p, existsFS fs p = true ↔ p ∈ expectedNames out fname n) :
    generate_unique_filename fs out fname = out ++ [expectedName fname n] := by
  rcases Nat.eq_zero_or_pos n with h0 | hpos
  · subst h0
    have hfalse : existsFS fs (out ++ [fname]) = false := by
      cases hb : existsFS fs (out ++ [fname]) with
      | false => rfl
      | true =>
        exfalso
        have := (hkeys _).mp hb
        simp [expectedNames] at this
    simp [generate_unique_filename, hfalse, expectedName]
  · have hmem0 : (out ++ [fname]) ∈ expectedNames out fname n := by
      rw [mem_expectedNames]
      exact ⟨0, hpos, by simp [expectedName]⟩
    have htrue : existsFS fs (out ++ [fname]) = true := (hkeys _).mpr hmem0
    have haux : genUniqueAux fs out (stemSuffix fname).1 (stemSuffix fname).2 1 =
        candName (stemSuffix fname).1 (stemSuffix fname).2 n := by
      apply genUniqueAux_eq_of n fs out _ _ 1 n (by omega) hpos
      · intro j hj1 hj2
        apply (hkeys _).mpr
        rw [mem_expectedNames]
        refine ⟨j, by omega, ?_⟩
        have hj0 : j ≠ 0 := by omega
        simp [expectedName, hj0]
      · cases hb : existsFS fs
          (out ++ [candName (stemSuffix fname).1 (stemSuffix fname).2 n]) with
        | false => rfl
        | true =>
          exfalso
          obtain ⟨k, hk, he⟩ := (mem_expectedNames _ _ _ _).mp ((hkeys _).mp hb)
          have hcand : candName (stemSuffix fname).1 (stemSuffix fname).2 n =
              expectedName fname k := by
            have := List.append_cancel_left he
            simpa using this
          rcases Nat.eq_zero_or_pos k with hk0 | hkpos
          · subst hk0
            exact candName_ne_filename fname n
              (by simpa [expectedName] using hcand)
          · have hkne : k ≠ 0 := by omega
            have : n = k := candName_injective _ _ _ _
              (by simpa [expectedName, hkne] using hcand)
            omega
    have hne : expectedName fname n =
        candName (stemSuffix fname).1 (stemSuffix fname).2 n := by
      have hn0 : n ≠ 0 := by omega
      simp [expectedName, hn0]
    simp [generate_unique_filename, htrue, haux, hne]

/-- Flat-mode fold characterization: starting from the cleared output
directory, writing a sequence of records that share one base name yields
exactly the expected name sequence in write order, with matching contents on
disk. -/
theorem c3_fold_state (cfg : FileProcessorConfig)
    (hm : cfg.mirror_dir_structure = false) (fname : String) :
    ∀ rs : List FileData, (∀ r ∈ rs, pathName (parsePath r.path) = fname) →
      (rs.map some).foldl (write_output_file cfg (fun _ => false)) ⟨[], []⟩ =
        ⟨(List.zip (expectedNames cfg.output_dir fname rs.length)
            (rs.map FileData.content)).reverse,
          expectedNames cfg.output_dir fname rs.length⟩ := by
  intro rs
  induction rs using List.reverseRecOn with
  | nil => intro _; rfl
  | append_singleton rs r ih =>
    intro hall
    have hall' : ∀ x ∈ rs, pathName (parsePath x.path) = fname :=
      fun x hx => hall x (List.mem_append_left _ hx)
    have hr : pathName (parsePath r.path) = fname :=
      hall r (List.mem_append_right _ (List.mem_singleton_self _))
    rw [List.map_append, List.foldl_append, ih hall']
    have hlen_names :
        (expectedNames cfg.output_dir fname rs.length).length = rs.length :=
      expectedNames_length _ _ _
    have hlen_contents : (rs.map FileData.content).length = rs.length := by
      simp
    have hkeys : ∀ p,
        existsFS (List.zip (expectedNames cfg.output_dir fname rs.length)
          (rs.map FileData.content)).reverse p = true ↔
        p ∈ expectedNames cfg.output_dir fname rs.length := by
      intro p
      rw [existsFS_iff_mem_keys, List.map_reverse, List.mem_reverse,
        List.map_fst_zip _ _ (by omega)]
    have hresolved : resolve_output_path cfg
        (List.zip (expectedNames cfg.output_dir fname rs.length)
          (rs.map FileData.content)).reverse r =
        cfg.output_dir ++ [expectedName fname rs.length] := by
      rw [resolve_output_path, hm, hr]
      simp only [Bool.false_eq_true, if_false]
      exact generate_unique_on_expected _ _ _ _ hkeys
    simp only [List.map_cons, List.map_nil, List.foldl_cons, List.foldl_nil,
      write_output_file, hresolved]
    simp only [Bool.false_eq_true, if_false]
    have hlen : (rs ++ [r]).length = rs.length + 1 := by simp
    rw [hlen]
    simp only [expectedNames, List.map_append, List.map_cons, List.map_nil]
    rw [List.zip_append (by omega)]
    simp [List.reverse_append]

/-- C3.  `generate_unique_filename` returns `dir/filename` when that path is
unused, and otherwise `dir/{stem}_{n}{ext}` for the least `n ≥ 1` whose path
is unused; consequently, writing `N` records sharing one base name into an
initially empty flat-mode output directory produces exactly the `N` distinct
paths `name, {stem}_1{ext}, …, {stem}_{N-1}{ext}`, in write order. -/
theorem c3_collision_free_naming (filename : String) :
    (∀ (fs : FS) (base : List String),
      existsFS fs (base ++ [filename]) = false →
      generate_unique_filename fs base filename = base ++ [filename]) ∧
    (∀ (fs : FS) (base : List String),
      existsFS fs (base ++ [filename]) = true →
      ∃ n, 1 ≤ n ∧
        generate_unique_filename fs base filename =
          base ++ [candName (stemSuffix filename).1 (stemSuffix filename).2 n] ∧
        existsFS fs
          (base ++ [candName (stemSuffix filename).1 (stemSuffix filename).2 n])
            = false ∧
        (∀ m, 1 ≤ m → m < n →
          existsFS fs
            (base ++ [candName (stemSuffix filename).1 (stemSuffix filename).2 m])
              = true)) ∧
    (∀ (cfg : FileProcessorConfig) (rs : List FileData),
      cfg.mirror_dir_structure = false →
      (∀ r ∈ rs, pathName (parsePath r.path) = filename) →
      ((rs.map some).foldl (write_output_file cfg (fun _ => false))
          ⟨[], []⟩).processed =
        expectedNames cfg.output_dir filename rs.length ∧
      (expectedNames cfg.output_dir filename rs.length).Nodup ∧
      (∀ p, existsFS ((rs.map some).foldl
          (write_output_file cfg (fun _ => false)) ⟨[], []⟩).fs p = true ↔
        p ∈ expectedNames cfg.output_dir filename rs.length)) := by
  refine ⟨?_, ?_, ?_⟩
  · intro fs base h
    simp [generate_unique_filename, h]
  · intro fs base h
    refine ⟨Nat.find (fresh_exists fs base (stemSuffix filename).1
      (stemSuffix filename).2 1),
      (Nat.find_spec (fresh_exists fs base _ _ 1)).1, ?_,
      (Nat.find_spec (fresh_exists fs base _ _ 1)).2, ?_⟩
    · have haux : genUniqueAux fs base (stemSuffix filename).1
          (stemSuffix filename).2 1 =
          candName (stemSuffix filename).1 (stemSuffix filename).2
            (Nat.find (fresh_exists fs base (stemSuffix filename).1
              (stemSuffix filename).2 1)) := by
        apply genUniqueAux_eq_of
          (Nat.find (fresh_exists fs base (stemSuffix filename).1
            (stemSuffix filename).2 1)) fs base _ _ 1 _ (by omega)
          (Nat.find_spec (fresh_exists fs base _ _ 1)).1
        · intro j hj1 hj2
          have := Nat.find_min (fresh_exists fs base (stemSuffix filename).1
            (stemSuffix filename).2 1) hj2
          cases hb : existsFS fs (base ++ [candName (stemSuffix filename).1
            (stemSuffix filename).2 j]) with
          | true => rfl
          | false => exact absurd ⟨hj1, hb⟩ this
        · exact (Nat.find_spec (fresh_exists fs base _ _ 1)).2
      simp [generate_unique_filename, h, haux]
    · intro m hm1 hmn
      have := Nat.find_min (fresh_exists fs base (stemSuffix filename).1
        (stemSuffix filename).2 1) hmn
      cases hb : existsFS fs (base ++ [candName (stemSuffix filename).1
        (stemSuffix filename).2 m]) with
      | true => rfl
      | false => exact absurd ⟨hm1, hb⟩ this
  · intro cfg rs hm hall
    have hst := c3_fold_state cfg hm filename rs hall
    refine ⟨by rw [hst], expectedNames_nodup _ _ _, ?_⟩
    intro p
    rw [hst]
    rw [existsFS_iff_mem_keys, List.map_reverse, List.mem_reverse,
      List.map_fst_zip _ _ (by
        rw [expectedNames_length]
        simp)]

/-- C3 witness: two flat-mode writes of records sharing the base name `x.py`
into the cleared output directory. -/
theorem c3_witness :
    ((([⟨"a/x.py", "A"⟩, ⟨"b/x.py", "B"⟩] : List FileData).map some).foldl
        (write_output_file ⟨[], [], [], [], ["out"], [], false⟩ (fun _ => false))
        ⟨[], []⟩).processed =
      expectedNames ["out"] "x.py" ([⟨"a/x.py", "A"⟩, ⟨"b/x.py", "B"⟩] :
        List FileData).length ∧
    (expectedNames ["out"] "x.py" ([⟨"a/x.py", "A"⟩, ⟨"b/x.py", "B"⟩] :
        List FileData).length).Nodup ∧
    (∀ p, existsFS ((([⟨"a/x.py", "A"⟩, ⟨"b/x.py", "B"⟩] : List FileData).map
          some).foldl
        (write_output_file ⟨[], [], [], [], ["out"], [], false⟩ (fun _ => false))
        ⟨[], []⟩).fs p = true ↔
      p ∈ expectedNames ["out"] "x.py" ([⟨"a/x.py", "A"⟩, ⟨"b/x.py", "B"⟩] :
        List FileData).length) :=
  (c3_collision_free_naming "x.py").2.2 ⟨[], [], [], [], ["out"], [], false⟩
    [⟨"a/x.py", "A"⟩, ⟨"b/x.py", "B"⟩] rfl (by decide)

/-- A well-formed child list makes every member well-formed. -/
theorem wfChildren_mem : ∀ (cs : List FSNode), wfChildren cs = true →
    ∀ c ∈ cs, wfTree c = true := by
  intro cs
  induction cs with
  | nil => intro _ c hc; simp at hc
  | cons c cs ih =>
    intro h c' hc'
    rw [wfChildren] at h
    rcases List.mem_cons.mp hc' with rfl | hmem
    · exact (Bool.and_eq_true _ _ |>.mp h).1
    · exact ih (Bool.and_eq_true _ _ |>.mp h).2 c' hmem

/-- Collected entries of the subdirectory loop come from some surviving
(non-ignored, directory) child. -/
theorem mem_walkCollectDirs (E I D : List String) (path : List String) :
    ∀ (cs : List FSNode) (e : List String × Option String),
      e ∈ walkCollectDirs E I D path cs →
      ∃ c, c ∈ cs ∧ D.contains c.name = false ∧
        e ∈ walkCollect E I D (path ++ [c.name]) c := by
  intro cs
  induction cs with
  | nil => intro e he; simp [walkCollectDirs] at he
  | cons c cs ih =>
    intro e he
    rw [walkCollectDirs] at he
    rcases List.mem_append.mp he with h1 | h2
    · by_cases hg : (c.isDirB && !(D.contains c.name)) = true
      · rw [if_pos hg] at h1
        refine ⟨c, List.mem_cons_self _ _, ?_, h1⟩
        have := (Bool.and_eq_true _ _ |>.mp hg).2
        simpa using this
      · rw [if_neg hg] at h1
        simp at h1
    · obtain ⟨c', hc', hd, hw⟩ := ih e h2
      exact ⟨c', List.mem_cons_of_mem _ hc', hd, hw⟩

/-- Shape of the paths collected by the walk: each is the walk root extended
by a nonempty relative path whose intermediate directory components all
survived the pruning; under a well-formed tree all components are legal
names. -/
theorem walkCollect_shape_aux : ∀ (N : Nat) (t : FSNode), sizeOf t ≤ N →
    ∀ (E I D path : List String) (e : List String × Option String),
      e ∈ walkCollect E I D path t →
      ∃ rel, e.1 = path ++ rel ∧ rel ≠ [] ∧
        (∀ d ∈ rel.dropLast, d ∉ D) ∧
        (wfTree t = true → ∀ d ∈ rel, goodNameB d = true) := by
  intro N
  induction N with
  | zero =>
    intro t ht
    exfalso
    cases t <;> simp at ht
  | succ N ih =>
    intro t ht E I D path e he
    match t with
    | .file n c => simp [walkCollect] at he
    | .dir n readable children =>
      rw [walkCollect] at he
      by_cases hr : (!readable) = true
      · rw [if_pos hr] at he
        simp at he
      · rw [if_neg hr] at he
        rcases List.mem_append.mp he with hf | hd
        · obtain ⟨f, hfmem, hfeq⟩ := List.mem_filterMap.mp hf
          have hisf : f.isFileB = true := List.of_mem_filter hfmem
          rcases f with ⟨fn, fc⟩ | ⟨fn, fr, fcs⟩
          · by_cases hsel :
                should_process_file E I (path ++ [(FSNode.file fn fc).name]) = true
            · rw [if_pos hsel] at hfeq
              have he2 : e = (path ++ [fn], fc) := by
                have := Option.some.inj hfeq
                simpa [FSNode.name] using this.symm
              refine ⟨[fn], by simp [he2], by simp, by simp, ?_⟩
              intro hwf d hdmem
              rw [List.mem_singleton.mp hdmem]
              rw [wfTree] at hwf
              have hch := (Bool.and_eq_true _ _ |>.mp hwf).2
              have hmemall := wfChildren_mem children hch _
                (List.mem_of_mem_filter hfmem)
              simpa [wfTree] using hmemall
            · rw [if_neg hsel] at hfeq
              simp at hfeq
          · simp [FSNode.isFileB] at hisf
        · obtain ⟨c, hcmem, hcD, hw⟩ := mem_walkCollectDirs E I D path children e hd
          have hsz : sizeOf c ≤ N := by
            have h1 := List.sizeOf_lt_of_mem hcmem
            simp only [FSNode.dir.sizeOf_spec] at ht
            omega
          obtain ⟨rel', h1, h2, h3, h4⟩ := ih c hsz E I D (path ++ [c.name]) e hw
          refine ⟨c.name :: rel', by simpa [List.append_assoc] using h1, by simp, ?_, ?_⟩
          · intro d hdmem
            cases rel' with
            | nil => exact absurd rfl h2
            | cons r0 rel'' =>
              rw [List.dropLast_cons₂] at hdmem
              rcases List.mem_cons.mp hdmem with rfl | hdm
              · simpa using hcD
              · exact h3 d hdm
          · intro hwf d hdmem
            rw [wfTree] at hwf
            have hch := (Bool.and_eq_true _ _ |>.mp hwf).2
            have hwfc := wfChildren_mem children hch c hcmem
            rcases List.mem_cons.mp hdmem with rfl | hdm
            · cases c with
              | file fn fc => simpa [wfTree, FSNode.name] using hwfc
              | dir fn fr fcs =>
                rw [wfTree] at hwfc
                simpa [FSNode.name] using (Bool.and_eq_true _ _ |>.mp hwfc).1
            · exact h4 hwfc d hdm

/-- Splitting always yields at least one (possibly empty) component. -/
theorem splitChars_ne_nil : ∀ l : List Char, splitChars l ≠ [] := by
  intro l
  cases l with
  | nil => simp [splitChars]
  | cons c cs =>
    simp only [splitChars]
    cases h : splitChars cs with
    | nil => by_cases hc : c = '/' <;> simp [hc]
    | cons a t => by_cases hc : c = '/' <;> simp [hc]

/-- A separator-free character list splits into itself. -/
theorem splitChars_no_sep : ∀ l : List Char, '/' ∉ l → splitChars l = [l] := by
  intro l h
  induction l with
  | nil => rfl
  | cons c cs ih =>
    have hc : ¬ c = '/' := fun hh => h (hh ▸ List.mem_cons_self _ _)
    have hcs : '/' ∉ cs := fun hm => h (List.mem_cons_of_mem _ hm)
    simp only [splitChars, ih hcs]
    simp [hc]

/-- Splitting after a leading separator-free component. -/
theorem splitChars_sep (x r : List Char) (h : '/' ∉ x) :
    splitChars (x ++ '/' :: r) = x :: splitChars r := by
  induction x with
  | nil =>
    rw [List.nil_append]
    cases hs : splitChars r with
    | nil => exact absurd hs (splitChars_ne_nil r)
    | cons a t => simp [splitChars, hs]
  | cons c x ih =>
    have hc : ¬ c = '/' := fun hh => h (hh ▸ List.mem_cons_self _ _)
    have hx : '/' ∉ x := fun hm => h (List.mem_cons_of_mem _ hm)
    rw [List.cons_append, splitChars, ih hx]
    simp [hc]

/-- Parsing inverts rendering on nonempty paths of legal component names. -/
theorem parsePath_pathStr : ∀ (rel : List String), rel ≠ [] →
    (∀ d ∈ rel, goodNameB d = true) → parsePath (pathStr rel) = rel := by
  intro rel
  induction rel with
  | nil => intro h _; exact absurd rfl h
  | cons x rest ih =>
    intro _ hgood
    have hx := hgood x (List.mem_cons_self _ _)
    have hxsep : '/' ∉ x.data := by
      simp only [goodNameB, Bool.and_eq_true] at hx
      simpa using hx.2
    cases rest with
    | nil =>
      simp only [parsePath, pathStr, List.map_cons, List.map_nil, joinComponents]
      rw [splitChars_no_sep _ hxsep]
      simp
    | cons y rest' =>
      have hrest : ∀ d ∈ y :: rest', goodNameB d = true :=
        fun d hd => hgood d (List.mem_cons_of_mem _ hd)
      have ihr := ih (by simp) hrest
      have ihr' : (splitChars (joinComponents
          (List.map String.data (y :: rest')))).map
            (fun cs => (⟨cs⟩ : String)) = y :: rest' := by
        simpa [parsePath, pathStr] using ihr
      simp only [List.map_cons] at ihr'
      simp only [parsePath, pathStr, List.map_cons, joinComponents]
      rw [splitChars_sep _ _ hxsep]
      simp only [List.map_cons, ihr']

/-- `generate_unique_filename` always answers directly inside the probed
directory. -/
theorem generate_unique_shape (fs : FS) (base : List String) (f : String) :
    ∃ nm, generate_unique_filename fs base f = base ++ [nm] := by
  cases h : existsFS fs (base ++ [f]) with
  | false => exact ⟨f, by simp [generate_unique_filename, h]⟩
  | true =>
    exact ⟨genUniqueAux fs base (stemSuffix f).1 (stemSuffix f).2 1,
      by simp [generate_unique_filename, h]⟩

/-- Inversion of a successful read of a collected entry. -/
theorem process_file_collected_inv (source rel : List String)
    (copt : Option String) (fd : FileData)
    (h : process_file source (source ++ rel, copt) = some fd) :
    ∃ c, copt = some c ∧ fd = ⟨pathStr rel, c⟩ := by
  cases copt with
  | none => simp [process_file] at h
  | some c =>
    refine ⟨c, rfl, ?_⟩
    have hpre : source.isPrefixOf (source ++ rel) = true := by
      rw [List.isPrefixOf_iff_prefix]
      exact ⟨rel, rfl⟩
    simp [process_file, relative_to, hpre, List.drop_left] at h
    exact h.symm

/-- Provenance of entries of `processed_files` across a fold of writes. -/
theorem foldl_write_provenance (cfg : FileProcessorConfig)
    (bad : List String → Bool) :
    ∀ (records : List (Option FileData)) (st0 : OutState) (p : List String),
      p ∈ (records.foldl (write_output_file cfg bad) st0).processed →
      p ∈ st0.processed ∨
        ∃ fd : FileData, some fd ∈ records ∧
          (cfg.mirror_dir_structure = true →
            p = cfg.output_dir ++ parsePath fd.path) ∧
          (cfg.mirror_dir_structure = false →
            ∃ nm, p = cfg.output_dir ++ [nm]) := by
  intro records
  induction records with
  | nil => intro st0 p hp; exact Or.inl hp
  | cons r records ih =>
    intro st0 p hp
    rw [List.foldl_cons] at hp
    rcases ih (write_output_file cfg bad st0 r) p hp with h1 | h2
    · cases r with
      | none => exact Or.inl h1
      | some fd =>
        by_cases hb : bad (resolve_output_path cfg st0.fs fd) = true
        · simp only [write_output_file, hb, if_true] at h1
          exact Or.inl h1
        · have hb' : bad (resolve_output_path cfg st0.fs fd) = false := by
            simpa using hb
          simp only [write_output_file, hb', Bool.false_eq_true, if_false] at h1
          simp only [List.mem_append, List.mem_singleton] at h1
          rcases h1 with h1 | h1
          · exact Or.inl h1
          · refine Or.inr ⟨fd, List.mem_cons_self _ _, ?_, ?_⟩
            · intro hm
              rw [h1]
              simp [resolve_output_path, hm]
            · intro hm
              rw [h1]
              simp only [resolve_output_path, hm, Bool.false_eq_true, if_false]
              exact generate_unique_shape st0.fs cfg.output_dir _
    · obtain ⟨fd, hmem, hx⟩ := h2
      exact Or.inr ⟨fd, List.mem_cons_of_mem _ hmem, hx⟩

/-- C2.  No file under a pruned (ignored-name) directory is ever collected:
every collected path extends the walk root by a relative path none of whose
intermediate directory components is ignored; consequently, in mirrored mode
every path written under the output root likewise contains no ignored
directory component, and in flat mode everything is written directly in the
output root. -/
theorem c2_ignored_dirs_pruned :
    (∀ (E I D path : List String) (t : FSNode)
        (e : List String × Option String),
      e ∈ walkCollect E I D path t →
      ∃ rel, e.1 = path ++ rel ∧ rel ≠ [] ∧ ∀ d ∈ rel.dropLast, d ∉ D) ∧
    (∀ (cfg : FileProcessorConfig) (t : FSNode) (bad : List String → Bool)
        (disk : FS),
      cfg.mirror_dir_structure = true → wfTree t = true →
      ∀ p ∈ (process_directory cfg t bad disk).2.processed,
        ∃ rel, p = cfg.output_dir ++ rel ∧ rel ≠ [] ∧
          ∀ d ∈ rel.dropLast, d ∉ cfg.ignored_dirs) ∧
    (∀ (cfg : FileProcessorConfig) (t : FSNode) (bad : List String → Bool)
        (disk : FS),
      cfg.mirror_dir_structure = false →
      ∀ p ∈ (process_directory cfg t bad disk).2.processed,
        ∃ nm, p = cfg.output_dir ++ [nm]) := by
  refine ⟨?_, ?_, ?_⟩
  · intro E I D path t e he
    obtain ⟨rel, h1, h2, h3, _⟩ :=
      walkCollect_shape_aux (sizeOf t) t le_rfl E I D path e he
    exact ⟨rel, h1, h2, h3⟩
  · intro cfg t bad disk hm hwf p hp
    simp only [process_directory] at hp
    rcases foldl_write_provenance cfg bad _ _ p hp with h0 | ⟨fd, hmem, hmirror, _⟩
    · simp at h0
    · obtain ⟨e, hemem, hpf⟩ := List.mem_map.mp hmem
      obtain ⟨rel, h1, h2, h3, h4⟩ :=
        walkCollect_shape_aux (sizeOf t) t le_rfl _ _ _ _ e hemem
      have hpf' : process_file cfg.source_dir (cfg.source_dir ++ rel, e.2) =
          some fd := by
        rw [← h1]
        exact hpf
      obtain ⟨c, hc, rfl⟩ := process_file_collected_inv _ _ _ _ hpf'
      have hparse : parsePath (pathStr rel) = rel :=
        parsePath_pathStr rel h2 (h4 hwf)
      refine ⟨rel, ?_, h2, h3⟩
      rw [hmirror hm]
      simp [hparse]
  · intro cfg t bad disk hm p hp
    simp only [process_directory] at hp
    rcases foldl_write_provenance cfg bad _ _ p hp with h0 | ⟨fd, _, _, hflat⟩
    · simp at h0
    · exact hflat hm

/-- C2 witness: a concrete flat-mode run places its one processed file
directly in the output root. -/
theorem c2_witness :
    ∃ nm, (["out", "a.py"] : List String) = ["out"] ++ [nm] :=
  c2_ignored_dirs_pruned.2.2 ⟨[".py"], ["ig"], [], ["src"], ["out"], [], false⟩
    (.dir "src" true [.file "a.py" (some "A"),
      .dir "ig" true [.file "b.py" (some "B")]])
    (fun _ => false) [] rfl ["out", "a.py"] (by decide)

/-- C4.  With the source tree and the whole environment (configuration and
write-failure behaviour) unchanged, the produced artifacts do not depend on
what the output directory contained when the run started — the run begins by
deleting and recreating the output root, and the modelled fan-out delivers
reader results to the writer in task-submission order — so a second run
started from the state the first run left behind produces byte-identical
tree and combined outputs. -/
theorem c4_rerun_byte_identical (cfg : FileProcessorConfig) (t : FSNode)
    (bad : List String → Bool) (disk : FS) :
    (∀ disk1 disk2 : FS,
      (process_directory cfg t bad disk1).1 =
        (process_directory cfg t bad disk2).1) ∧
    (process_directory cfg t bad
        (process_directory cfg t bad disk).2.fs).1 =
      (process_directory cfg t bad disk).1 :=
  ⟨fun _ _ => rfl, rfl⟩

/-- Character-list comparison is total. -/
theorem charsLE_total : ∀ x y : List Char,
    charsLE x y = true ∨ charsLE y x = true := by
  intro x
  induction x with
  | nil => intro y; exact Or.inl rfl
  | cons a as ih =>
    intro y
    cases y with
    | nil => exact Or.inr rfl
    | cons b bs =>
      by_cases h1 : a.toNat < b.toNat
      · left
        simp [charsLE, h1]
      · by_cases h2 : b.toNat < a.toNat
        · right
          simp [charsLE, h2]
        · rcases ih bs with h | h
          · left
            simp [charsLE, h1, h2, h]
          · right
            simp [charsLE, h1, h2, h]

/-- Cons-level characterization of the character-list comparison. -/
theorem charsLE_cons_iff (p q : Char) (ps qs : List Char) :
    charsLE (p :: ps) (q :: qs) = true ↔
      (p.toNat < q.toNat ∨ (p.toNat = q.toNat ∧ charsLE ps qs = true)) := by
  by_cases h1 : p.toNat < q.toNat
  · simp [charsLE, h1]
  · by_cases h2 : q.toNat < p.toNat
    · simp [charsLE, h1, h2]
      omega
    · have he : p.toNat = q.toNat := by omega
      simp [charsLE, h1, h2, he]

/-- Character-list comparison is transitive. -/
theorem charsLE_trans : ∀ x y z : List Char,
    charsLE x y = true → charsLE y z = true → charsLE x z = true := by
  intro x
  induction x with
  | nil => intro y z _ _; rfl
  | cons a as ih =>
    intro y z hxy hyz
    cases y with
    | nil => simp [charsLE] at hxy
    | cons b bs =>
      cases z with
      | nil => simp [charsLE] at hyz
      | cons c cs =>
        rw [charsLE_cons_iff] at hxy hyz ⊢
        rcases hxy with h1 | ⟨he1, hr1⟩
        · rcases hyz with h2 | ⟨he2, _⟩
          · exact Or.inl (by omega)
          · exact Or.inl (by omega)
        · rcases hyz with h2 | ⟨he2, hr2⟩
          · exact Or.inl (by omega)
          · exact Or.inr ⟨by omega, ih bs cs hr1 hr2⟩

/-- The Python sort key comparison is total. -/
theorem keyLE_total : ∀ a b : FSNode, keyLE a b = true ∨ keyLE b a = true := by
  intro a b
  by_cases h : a.isFileB = b.isFileB
  · simp [keyLE, h]
    exact charsLE_total _ _
  · have h' : ¬ b.isFileB = a.isFileB := fun hh => h hh.symm
    simp only [keyLE, if_neg h, if_neg h']
    cases ha : a.isFileB <;> cases hb : b.isFileB <;> simp_all

/-- The Python sort key comparison is transitive. -/
theorem keyLE_trans : ∀ a b c : FSNode,
    keyLE a b = true → keyLE b c = true → keyLE a c = true := by
  intro a b c hab hbc
  cases hfa : a.isFileB <;> cases hfb : b.isFileB <;> cases hfc : c.isFileB <;>
      simp [keyLE, hfa, hfb, hfc] at hab hbc ⊢ <;>
    exact charsLE_trans _ _ _ hab hbc

/-- Membership across a stable insertion. -/
theorem mem_insertSorted : ∀ (l : List FSNode) (a x : FSNode),
    x ∈ insertSorted a l ↔ x = a ∨ x ∈ l := by
  intro l a x
  induction l with
  | nil => simp [insertSorted]
  | cons b t ih =>
    by_cases h : keyLE a b = true
    · simp [insertSorted, h]
    · simp [insertSorted, h, ih]
      tauto

/-- Stable insertion permutes a cons. -/
theorem perm_insertSorted : ∀ (l : List FSNode) (a : FSNode),
    (insertSorted a l).Perm (a :: l) := by
  intro l a
  induction l with
  | nil => exact List.Perm.refl _
  | cons b t ih =>
    by_cases h : keyLE a b = true
    · rw [insertSorted, if_pos h]
    · rw [insertSorted, if_neg h]
      exact (List.Perm.cons b ih).trans (List.Perm.swap a b t)

/-- The sorted listing is a permutation of the raw listing. -/
theorem perm_sortChildren : ∀ l : List FSNode, (sortChildren l).Perm l := by
  intro l
  induction l with
  | nil => exact List.Perm.refl _
  | cons a t ih =>
    rw [sortChildren]
    exact (perm_insertSorted (sortChildren t) a).trans (List.Perm.cons a ih)

/-- Sorting preserves membership. -/
theorem mem_sortChildren (l : List FSNode) (x : FSNode) :
    x ∈ sortChildren l ↔ x ∈ l :=
  (perm_sortChildren l).mem_iff

/-- Stable insertion preserves sortedness. -/
theorem pairwise_insertSorted : ∀ (l : List FSNode) (a : FSNode),
    List.Pairwise (fun x y => keyLE x y = true) l →
    List.Pairwise (fun x y => keyLE x y = true) (insertSorted a l) := by
  intro l
  induction l with
  | nil =>
    intro a _
    simp [insertSorted]
  | cons b t ih =>
    intro a h
    obtain ⟨hb, ht⟩ := List.pairwise_cons.mp h
    by_cases hab : keyLE a b = true
    · rw [insertSorted, if_pos hab]
      refine List.Pairwise.cons ?_ h
      intro y hy
      rcases List.mem_cons.mp hy with rfl | hyt
      · exact hab
      · exact keyLE_trans a b y hab (hb y hyt)
    · rw [insertSorted, if_neg hab]
      have hba : keyLE b a = true := (keyLE_total a b).resolve_left hab
      refine List.Pairwise.cons ?_ (ih a ht)
      intro y hy
      rcases (mem_insertSorted t a y).mp hy with rfl | hyt
      · exact hba
      · exact hb y hyt

/-- The directory listing comes out sorted by the Python key
`(is_file, name.lower())`. -/
theorem sortChildren_sorted : ∀ l : List FSNode,
    List.Pairwise (fun x y => keyLE x y = true) (sortChildren l) := by
  intro l
  induction l with
  | nil => simp [sortChildren]
  | cons a t ih => exact pairwise_insertSorted _ a ih

/-- The child loop is the concatenation of per-child blocks of the enumerated
listing. -/
theorem treeLoop_eq_childBlock (D txt path : List String) (pre : String)
    (total : Nat) :
    ∀ (l : List FSNode) (i : Nat),
      treeLoop D txt path pre total i l =
        (l.enumFrom i).flatMap (childBlock D txt path pre total) := by
  intro l
  induction l with
  | nil => intro i; simp [treeLoop]
  | cons p rest ih =>
    intro i
    rw [treeLoop, List.enumFrom_cons, List.flatMap_cons, ih (i + 1)]
    rfl

/-- C8 (amended).  Children render sorted by the key
`(is_file, lowercased name)` — directories before files, case-insensitively
within each group — and connectors are assigned by a child's index in the
*full* sorted listing, ignored entries included: the child at the final index
of that listing gets `└── ` (and the four-space prefix extension), every
other index gets `├── ` (and `│   `); an ignored name consumes its index but
emits nothing, so when the final listed child is ignored no `└── ` line is
emitted at that level. -/
theorem c8_sorted_and_connectors :
    (∀ l : List FSNode,
      List.Pairwise (fun x y => keyLE x y = true) (sortChildren l)) ∧
    (∀ l : List FSNode, (sortChildren l).Perm l) ∧
    (∀ (D txt path : List String) (nm : String) (children : List FSNode)
        (pre : String),
      D.contains (pathName path) = false →
      txt.isPrefixOf path = true →
      genTree D txt path (.dir nm true children) pre =
        ((sortChildren children).enum).flatMap
          (childBlock D txt path pre (sortChildren children).length)) := by
  refine ⟨sortChildren_sorted, perm_sortChildren, ?_⟩
  intro D txt path nm children pre h1 h2
  rw [genTree]
  simp only [h1, h2, Bool.not_true, Bool.false_eq_true, if_false]
  exact treeLoop_eq_childBlock D txt path pre _ _ 0

/-- C8 witness: the characterization applied to a concrete directory whose
last sorted child is ignored. -/
theorem c8_witness :
    genTree ["z"] [] ["r"] (.dir "r" true [.file "a" none, .file "z" none]) ""
      = ((sortChildren [.file "a" none, .file "z" none]).enum).flatMap
        (childBlock ["z"] [] ["r"] ""
          (sortChildren [.file "a" none, .file "z" none]).length) :=
  c8_sorted_and_connectors.2.2 ["z"] [] ["r"] "r"
    [.file "a" none, .file "z" none] "" rfl rfl

/-- C8 counterexample to the claim as stated: in a directory whose last
*sorted* child is ignored, the last *emitted* child still gets `├── `, not
`└── ` — `is_last` is computed against the unfiltered listing. -/
theorem c8_last_emitted_child_keeps_tee :
    genTree ["z"] [] ["r"] (.dir "r" true [.file "a" none, .file "z" none]) ""
      = ["├── a"] ∧
    (["├── a"] : List String) ≠ ["└── a"] := by
  constructor
  · simp [genTree, treeLoop, sortChildren, insertSorted, keyLE, charsLE,
      strLower, FSNode.isFileB, FSNode.name, pathName, FSNode.isDirB]
  · decide

/-- Lines emitted by the child loop, assuming the shape property for smaller
subtrees: each is a connector line for a non-ignored child or comes from a
recursive subtree rendering. -/
theorem treeLoop_shape (D txt path : List String) (N : Nat)
    (ih : ∀ (node : FSNode), sizeOf node ≤ N → ∀ (path' : List String)
      (pre : String), ∀ line ∈ genTree D txt path' node pre,
      ∃ pre' conn nm, line = pre' ++ conn ++ nm ∧ nm ∉ D ∧
        (conn = "├── " ∨ conn = "└── ")) :
    ∀ (l : List FSNode), (∀ c ∈ l, sizeOf c ≤ N) →
      ∀ (pre : String) (total i : Nat),
      ∀ line ∈ treeLoop D txt path pre total i l,
      ∃ pre' conn nm, line = pre' ++ conn ++ nm ∧ nm ∉ D ∧
        (conn = "├── " ∨ conn = "└── ") := by
  intro l
  induction l with
  | nil =>
    intro _ pre total i line hline
    simp [treeLoop] at hline
  | cons p rest ihl =>
    intro hsz pre total i line hline
    rw [treeLoop] at hline
    rcases List.mem_append.mp hline with h1 | h2
    · by_cases hD : D.contains p.name = true
      · rw [if_pos hD] at h1
        simp at h1
      · rw [if_neg hD] at h1
        rcases List.mem_cons.mp h1 with rfl | hrec
        · refine ⟨pre, (if i = total - 1 then "└── " else "├── "), p.name,
            rfl, ?_, ?_⟩
          · simpa using hD
          · by_cases hi : i = total - 1 <;> simp [hi]
        · by_cases hdir : p.isDirB = true
          · rw [if_pos hdir] at hrec
            exact ih p (hsz p (List.mem_cons_self _ _)) _ _ line hrec
          · rw [if_neg hdir] at hrec
            simp at hrec
    · exact ihl (fun c hc => hsz c (List.mem_cons_of_mem _ hc))
        pre total (i + 1) line h2

/-- Shape of every line the tree renderer emits (bounded-induction core). -/
theorem genTree_shape_aux : ∀ (N : Nat) (node : FSNode), sizeOf node ≤ N →
    ∀ (D txt path : List String) (pre : String),
      ∀ line ∈ genTree D txt path node pre,
      ∃ pre' conn nm, line = pre' ++ conn ++ nm ∧ nm ∉ D ∧
        (conn = "├── " ∨ conn = "└── ") := by
  intro N
  induction N with
  | zero =>
    intro node h
    exfalso
    cases node <;> simp at h
  | succ N ih =>
    intro node hsz D txt path pre line hline
    match node with
    | .file n c => simp [genTree] at hline
    | .dir n readable children =>
      rw [genTree] at hline
      by_cases h1 : D.contains (pathName path) = true
      · rw [if_pos h1] at hline
        simp at hline
      · rw [if_neg h1] at hline
        by_cases h2 : (!(txt.isPrefixOf path)) = true
        · rw [if_pos h2] at hline
          simp at hline
        · rw [if_neg h2] at hline
          by_cases h3 : (!readable) = true
          · rw [if_pos h3] at hline
            simp at hline
          · rw [if_neg h3] at hline
            refine treeLoop_shape D txt path N ?_ (sortChildren children) ?_
              pre _ 0 line hline
            · intro node' hn' path' pre' line' hline'
              exact ih node' hn' D txt path' pre' line' hline'
            · intro c hc
              have hmem := (mem_sortChildren children c).mp hc
              have := List.sizeOf_lt_of_mem hmem
              simp only [FSNode.dir.sizeOf_spec] at hsz
              omega

/-- C9.  The tree rendering never emits an entry whose name is in the
ignored-directories set, and it renders nothing at all when the path's own
name is ignored, when the path lies outside the text-output scope root, or
when listing the directory raises a permission error. -/
theorem c9_tree_prune_and_scope :
    (∀ (D txt path : List String) (node : FSNode) (pre : String),
      ∀ line ∈ genTree D txt path node pre,
      ∃ pre' conn nm, line = pre' ++ conn ++ nm ∧ nm ∉ D ∧
        (conn = "├── " ∨ conn = "└── ")) ∧
    (∀ (D txt path : List String) (node : FSNode) (pre : String),
      D.contains (pathName path) = true → genTree D txt path node pre = []) ∧
    (∀ (D txt path : List String) (node : FSNode) (pre : String),
      txt.isPrefixOf path = false → genTree D txt path node pre = []) ∧
    (∀ (D txt path : List String) (nm : String) (children : List FSNode)
        (pre : String),
      genTree D txt path (.dir nm false children) pre = []) := by
  refine ⟨?_, ?_, ?_, ?_⟩
  · intro D txt path node pre line hline
    exact genTree_shape_aux (sizeOf node) node le_rfl D txt path pre line hline
  · intro D txt path node pre h
    match node with
    | .file n c => simp [genTree]
    | .dir n r children =>
      rw [genTree, if_pos h]
  · intro D txt path node pre h
    match node with
    | .file n c => simp [genTree]
    | .dir n r children =>
      rw [genTree]
      by_cases h1 : D.contains (pathName path) = true
      · rw [if_pos h1]
      · rw [if_neg h1, if_pos (by simp [h])]
  · intro D txt path nm children pre
    rw [genTree]
    by_cases h1 : D.contains (pathName path) = true
    · rw [if_pos h1]
    · rw [if_neg h1]
      by_cases h2 : (!(txt.isPrefixOf path)) = true
      · rw [if_pos h2]
      · rw [if_neg h2, if_pos (by decide)]

/-- C9 witness: rendering a path whose own name is ignored yields nothing. -/
theorem c9_witness :
    genTree ["r"] [] ["r"] (.dir "r" true [.file "a" none]) "" = [] :=
  c9_tree_prune_and_scope.2.1 ["r"] [] ["r"]
    (.dir "r" true [.file "a" none]) "" rfl

end ExportPy
